import Mathlib

/-! # transcript-packer: line extractor and attribution resolver

A shallow embedding of `processLine`, `processEpisode` (its token loop),
`fixEpisode` and the argument handling of `main` from `transcript-packer.go`,
and theorems about them.

Modelling conventions.

* A Go `string` is a finite sequence of bytes: `GoString := List UInt8`.
  `len`, indexing and slicing are the list operations on bytes.  The cutsets
  passed to `strings.Trim` and the rune passed to `strings.IndexRune` are
  ASCII, for which both library functions work byte by byte.
* An `html.Tokenizer` is the list of tokens it has not yet returned.  `z.Next()`
  removes the head of that list; on the empty list it returns `ErrorToken`
  (and keeps doing so).  Token kinds that no `switch` of the program has a case
  for (self-closing tags, comments, doctypes) are the constructor `Other`.
* A run-time panic (index or slice out of range) is the result `none`.
* `depth` is a Go `int`; it moves by one per token, so it is modelled as an
  unbounded `Int`.
-/

namespace TranscriptPacker

/-- A Go string: a sequence of bytes. -/
abbrev GoString := List UInt8

/-- The byte of an ASCII character literal. -/
def byte (c : Char) : UInt8 := UInt8.ofNat c.toNat

/-- The Go string of an ASCII string literal. -/
def ascii (s : String) : GoString := s.toList.map byte

/-- Source: `type Line struct { Character string; Text string }`. -/
structure Line where
  Character : GoString
  Text : GoString
deriving DecidableEq, Repr

/-- The tokens of `golang.org/x/net/html` the program looks at, with their
`Data`; `Other` stands for every token type without a `case`. `ErrorToken` is
the end of the token list. -/
inductive Token where
  | StartTag (data : GoString)
  | EndTag (data : GoString)
  | Text (data : GoString)
  | Other
deriving DecidableEq, Repr

/-- The whitespace cutset `" \n\r\t\v"` used by every trim of `fixEpisode`. -/
def ws : GoString := ascii " \n\r\t\x0b"

/-- Go `strings.Trim(s, cutset)` for an ASCII cutset: the bytes of `cutset` are
removed from the right end, then from the left end. -/
def Trim (s cutset : GoString) : GoString :=
  (s.rdropWhile (fun b => b ∈ cutset)).dropWhile (fun b => b ∈ cutset)

/-- Go `strings.IndexRune(s, r)` for an ASCII rune `r`: the index of the first
byte equal to `r`, or `-1`. -/
def IndexRune (s : GoString) (r : UInt8) : Int :=
  if r ∈ s then (s.indexOf r : Int) else -1

/-- Go slice expression `s[lo:hi]` on a string; out-of-range bounds panic. -/
def slice (s : GoString) (lo hi : Int) : Option GoString :=
  if 0 ≤ lo ∧ lo ≤ hi ∧ hi ≤ (s.length : Int) then
    some ((s.drop lo.toNat).take (hi.toNat - lo.toNat))
  else none

/-- Go `append(lines, Line{character, line})` guarded by `len(line) > 0`. -/
def flush (lines : List Line) (character line : GoString) : List Line :=
  if 0 < line.length then lines ++ [⟨character, line⟩] else lines

/-- The `for` loop of `processLine`. The last argument is the current token
`tt` followed by the tokens still unread (`[]` when `tt` is `ErrorToken`). The
result is the returned slice and the tokens left unread at the `return`. -/
def processLineLoop (depth : Int) (line character : GoString) (lines : List Line) :
    List Token → List Line × List Token
  | [] => (lines, [])
  | Token.StartTag d :: z =>
    if d = ascii "dd" then
      processLineLoop (depth + 1) [] [] (flush lines character line) z
    else if d = ascii "b" ∧ line = [] then
      match z with
      | Token.Text c :: z1 => processLineLoop depth line c lines z1
      | [] => processLineLoop depth line character lines []
      | tt :: z1 => processLineLoop depth line character lines (tt :: z1)
    else processLineLoop depth line character lines z
  | Token.Text d :: z => processLineLoop depth (line ++ d) character lines z
  | Token.EndTag d :: z =>
    if d = ascii "dd" then
      if depth - 1 ≤ 0 then (flush lines character line, z)
      else processLineLoop (depth - 1) line character lines z
    else processLineLoop depth line character lines z
  | Token.Other :: z => processLineLoop depth line character lines z

/-- Source: `processLine(lines, z)`, with `z` the tokens not yet read. Returns
the new `lines` and the tokens left unread. -/
def processLine (lines : List Line) (z : List Token) : List Line × List Token :=
  processLineLoop 1 [] [] lines z

/-- The token loop of `processEpisode` (the download aside). The last
argument is the current token followed by the unread ones, as in
`processLineLoop`. The first argument bounds the number of iterations: each
iteration reads at least one token, so the length of the token list is enough
(`processEpisodeLoop_fuel`); `none` means the bound was too small. -/
def processEpisodeLoop : Nat → List Line → List Token → Option (List Line)
  | _, lines, [] => some lines
  | 0, _, _ :: _ => none
  | fuel + 1, lines, Token.StartTag d :: z =>
    if d = ascii "dd" then
      processEpisodeLoop fuel (processLine lines z).1 (processLine lines z).2
    else processEpisodeLoop fuel lines z
  | fuel + 1, lines, Token.EndTag d :: z =>
    if d = ascii "dd" then some lines
    else processEpisodeLoop fuel lines z
  | fuel + 1, lines, Token.Text _ :: z => processEpisodeLoop fuel lines z
  | fuel + 1, lines, Token.Other :: z => processEpisodeLoop fuel lines z

/-- Source: `processEpisode(episode)`, as a function of the token stream of the
downloaded page. -/
def processEpisode (ts : List Token) : Option (List Line) :=
  processEpisodeLoop ts.length [] ts

/-- Go `out = append(out, Line{strings.Trim(prev, ws), strings.Trim(text, ws)})`. -/
def emit (prev text : GoString) : List Line := [⟨Trim prev ws, Trim text ws⟩]

/-- The part of the `case '['` body of `fixEpisode` from the colon scan on
(`prev` has already been set to `v.Character`). -/
def resolveAction (prev text : GoString) : Option (GoString × List Line) :=
  let index := IndexRune text (byte ':')
  if 0 ≤ index then
    (slice text 0 index).bind fun pre =>
      if pre = ascii "music" then some (prev, emit prev text)
      else (slice text (index + 1) text.length).bind fun post =>
        some (prev ++ pre, emit (prev ++ pre) post)
  else some (prev, emit prev text)

/-- One iteration of the `for _, v := range lines` loop of `fixEpisode`:
from the carried `prev` and the line `v` to the new `prev` and the lines
appended to `out` (none for a song heading), or `none` on a panic. -/
def fixStep (prev : GoString) (v : Line) : Option (GoString × List Line) :=
  let prev := if 0 < v.Character.length then v.Character else prev
  if 0 < v.Character.length ∧ v.Character.head? = some (byte '[') then
    some (Trim v.Character (ascii "[]"), [])
  else
    match v.Text.head? with
    | none => none
    | some c0 =>
      if c0 = byte ':' then
        (slice v.Text 1 v.Text.length).bind fun text => some (prev, emit prev text)
      else if c0 = byte '[' then
        let prev := v.Character
        if v.Character.length = 0 then
          let text := Trim v.Text ws
          (slice text 1 ((text.length : Int) - 1)).bind fun text => resolveAction prev text
        else resolveAction prev v.Text
      else if 0 < v.Character.length then
        let index := IndexRune v.Text (byte ':')
        if 0 ≤ index then
          (slice v.Text 0 index).bind fun pre =>
            (slice v.Text (index + 1) v.Text.length).bind fun post =>
              some (prev ++ pre, emit (prev ++ pre) post)
        else some (prev, emit prev v.Text)
      else some (prev, emit prev v.Text)

/-- The `range` loop of `fixEpisode` with its two variables `prev` and `out`. -/
def fixEpisodeLoop (prev : GoString) (out : List Line) : List Line → Option (List Line)
  | [] => some out
  | v :: rest =>
    match fixStep prev v with
    | none => none
    | some (prev1, emitted) => fixEpisodeLoop prev1 (out ++ emitted) rest

/-- Source: `fixEpisode(lines)`; `none` is a run-time panic. -/
def fixEpisode (lines : List Line) : Option (List Line) :=
  fixEpisodeLoop [] [] lines

/-- Source: the argument handling of `main` (lines 224-232). `args` are the
positional arguments `flag.Arg(0)`, `flag.Arg(1)`, ..., each given by the number
`strconv.Atoi` returns for it (its error is discarded). The result is
`(min, max)`. -/
def seasonRange (args : List Int) : Int × Int :=
  let min : Int := 1
  let max : Int := 7
  let min := if 1 < args.length then args.getD 1 0 else min
  let max := if 0 < args.length then args.getD 0 0 else max
  (min, max)

/-- Source: the values of `s` in `for s := min; s <= max; s++` of `main`, the
seasons processed, in order. -/
def seasonsProcessed (min max : Int) : List Int :=
  (List.range (max + 1 - min).toNat).map fun i => min + (i : Int)

/-! ## Token streams used in the statements -/

/-- The tokens `Start dd, Text u` for each text `u` of the list, in order. -/
def lyricTail : List GoString → List Token
  | [] => []
  | u :: ts => Token.StartTag (ascii "dd") :: Token.Text u :: lyricTail ts

/-- The nested-lyric stream of depth `d = ts.length + 1`:
`Text t1, Start dd, Text t2, ..., Start dd, Text td` followed by `d` `End dd`. -/
def lyricStream (t1 : GoString) (ts : List GoString) : List Token :=
  Token.Text t1 :: lyricTail ts ++ List.replicate (ts.length + 1) (Token.EndTag (ascii "dd"))

/-- Number of `Start dd` tokens of a token list. -/
def ddStarts (p : List Token) : Nat := p.count (Token.StartTag (ascii "dd"))

/-- Number of `End dd` tokens of a token list. -/
def ddEnds (p : List Token) : Nat := p.count (Token.EndTag (ascii "dd"))

/-- A token list is balanced when no prefix of it has more `End dd` than
`Start dd` tokens and the totals are equal. -/
def Balanced (body : List Token) : Prop :=
  (∀ p ∈ body.inits, ddEnds p ≤ ddStarts p) ∧ ddStarts body = ddEnds body

instance (body : List Token) : Decidable (Balanced body) := by
  unfold Balanced; infer_instance

/-- Read from depth `d`, the token list keeps the depth at least 1 on every
prefix and ends at depth exactly 1 (so the next `End dd` closes the container). -/
def OpenAt (d : Nat) (body : List Token) : Prop :=
  (∀ p, p <+: body → ddEnds p < ddStarts p + d) ∧ ddStarts body + d = ddEnds body + 1

/-- A token list that the loop of `processEpisode` reads entirely at top level:
a sequence of tokens other than `Start dd` and `End dd`, and of complete
containers `Start dd, body, End dd` with a balanced body. -/
inductive TopLevel : List Token → Prop where
  | nil : TopLevel []
  | token (t : Token) (ts : List Token) : t ≠ Token.StartTag (ascii "dd") →
      t ≠ Token.EndTag (ascii "dd") → TopLevel ts → TopLevel (t :: ts)
  | container (body ts : List Token) : Balanced body → TopLevel ts →
      TopLevel (Token.StartTag (ascii "dd") :: (body ++ Token.EndTag (ascii "dd") :: ts))

/-! ## Scenarios of the resolver -/

/-- C1 (as stated, refuted): on the song-heading scenario the single emitted
line does not carry the character "Twilight". -/
theorem C1_heading_not_singer :
    fixEpisode [⟨ascii "[Verse 1: Twilight]", ascii "..."⟩,
        ⟨ascii "", ascii "Lyric line one"⟩]
      ≠ some [⟨ascii "Twilight", ascii "Lyric line one"⟩] := by
  decide

/-- C1 (amended): on the song-heading scenario `fixEpisode` returns exactly one
line; the heading line is discarded and the lyric line is attributed to the
whole heading with its surrounding brackets stripped, "Verse 1: Twilight". -/
theorem C1_heading_scenario :
    fixEpisode [⟨ascii "[Verse 1: Twilight]", ascii "..."⟩,
        ⟨ascii "", ascii "Lyric line one"⟩]
      = some [⟨ascii "Verse 1: Twilight", ascii "Lyric line one"⟩] := by
  decide

/-- C3 (failing input): at end-of-input `processLine` returns `lines` as it
stands; the text "hello" accumulated for the line in progress is not appended. -/
theorem C3_eof_drops_line_in_progress :
    processLine [] [Token.Text (ascii "hello")] = ([], []) := by
  decide

/-- C5 (failing input): on the extractor output line with empty character and
text "[" the slice `v.Text[1 : len(v.Text)-1]` is out of range and `fixEpisode`
panics; the same happens when "[" is followed by whitespace only. -/
theorem C5_lone_bracket_panics :
    fixEpisode [⟨ascii "", ascii "["⟩] = none ∧
      fixEpisode [⟨ascii "", ascii "[ \n"⟩] = none ∧
      (processLine [] [Token.Text (ascii "["), Token.EndTag (ascii "dd")]).1
        = [⟨ascii "", ascii "["⟩] := by
  decide

/-! ## Strings: slices, `IndexRune`, `Trim` -/

theorem slice_tail (x : UInt8) (s : GoString) :
    slice (x :: s) 1 ((s.length : Int) + 1) = some s := by
  simp [slice]

theorem slice_prefix (a b : GoString) :
    slice (a ++ b) 0 (a.length : Int) = some a := by
  simp [slice]

theorem slice_suffix (a b : GoString) (x : UInt8) :
    slice (a ++ x :: b) ((a.length : Int) + 1) ((a ++ x :: b).length : Int) = some b := by
  have h : ((a.length : Int) + 1).toNat = a.length + 1 := by omega
  simp [slice, h]
  omega

theorem IndexRune_append (a b : GoString) (r : UInt8) (h : r ∉ a) :
    IndexRune (a ++ r :: b) r = (a.length : Int) := by
  simp [IndexRune, List.indexOf_append_of_not_mem h]

theorem IndexRune_of_not_mem (s : GoString) (r : UInt8) (h : r ∉ s) :
    IndexRune s r = -1 := by
  simp [IndexRune, h]

/-- C10: for a character tag `c` that does not begin with `[` and any `body`,
`fixEpisode` on the single line `{c, ":" ++ body}` returns the single line
`{trim c, trim body}`: one leading `:` is stripped and the speaker is the
line's own tag. -/
theorem C10_dialogue_line (c body : GoString) (hc : c.head? ≠ some (byte '[')) :
    fixEpisode [⟨c, ascii ":" ++ body⟩] = some [⟨Trim c ws, Trim body ws⟩] := by
  have hs := slice_tail (byte ':') body
  have e : ascii ":" ++ body = byte ':' :: body := rfl
  rw [e]
  cases c with
  | nil => simp [fixEpisode, fixEpisodeLoop, fixStep, hs, emit]
  | cons x c =>
    have hx : x ≠ byte '[' := by simpa using hc
    simp [fixEpisode, fixEpisodeLoop, fixStep, hs, emit, hx]

/-- C10 at `{"Twilight", ":Hello, Spike!"}`, which gives
`{"Twilight", "Hello, Spike!"}`. -/
theorem C10_dialogue_line_witness :
    (ascii "Twilight").head? ≠ some (byte '[') ∧
      fixEpisode [⟨ascii "Twilight", ascii ":" ++ ascii "Hello, Spike!"⟩]
        = some [⟨Trim (ascii "Twilight") ws, Trim (ascii "Hello, Spike!") ws⟩] ∧
      Trim (ascii "Twilight") ws = ascii "Twilight" ∧
      Trim (ascii "Hello, Spike!") ws = ascii "Hello, Spike!" :=
  ⟨by decide, C10_dialogue_line (ascii "Twilight") (ascii "Hello, Spike!") (by decide),
    by decide, by decide⟩

/-- C8: for every bold name `c` and every non-empty text `t`, `processLine` on
the token stream `[Start b, Text c, End b, Text t, End dd]` returns
`lines ++ [{c, t}]` and has read the whole stream: exactly one new line, with
character `c` and with text exactly `t` (the bold name is not part of it). -/
theorem C8_single_bold_line (lines : List Line) (c t : GoString) (ht : t ≠ []) :
    processLine lines [Token.StartTag (ascii "b"), Token.Text c, Token.EndTag (ascii "b"),
        Token.Text t, Token.EndTag (ascii "dd")]
      = (lines ++ [⟨c, t⟩], []) := by
  have h1 : ascii "b" ≠ ascii "dd" := by decide
  have h2 : 0 < t.length := List.length_pos.mpr ht
  simp [processLine, processLineLoop, flush, h1, h2]

/-- C8 at the bold name "Twilight" and the text ":Hello", after one earlier
line. -/
theorem C8_single_bold_line_witness :
    ascii ":Hello" ≠ [] ∧
      processLine [⟨ascii "", ascii "[A door opens]"⟩]
          [Token.StartTag (ascii "b"), Token.Text (ascii "Twilight"),
            Token.EndTag (ascii "b"), Token.Text (ascii ":Hello"), Token.EndTag (ascii "dd")]
        = ([⟨ascii "", ascii "[A door opens]"⟩] ++ [⟨ascii "Twilight", ascii ":Hello"⟩], []) :=
  ⟨by decide, C8_single_bold_line _ (ascii "Twilight") (ascii ":Hello") (by decide)⟩


theorem Trim_bracketed (x y : UInt8) (m cutset : GoString) (hx : x ∉ cutset) (hy : y ∉ cutset) :
    Trim (x :: (m ++ [y])) cutset = x :: (m ++ [y]) := by
  have h : x :: (m ++ [y]) = (x :: m) ++ [y] := rfl
  rw [Trim, h, List.rdropWhile_concat_neg _ _ _ (by simpa using hy)]
  simp [hx]

theorem slice_inner (x y : UInt8) (m : GoString) :
    slice (x :: (m ++ [y])) 1 (((x :: (m ++ [y])).length : Int) - 1) = some m := by
  simp [slice]

theorem resolveAction_speaker (prev name rest : GoString) (hn : byte ':' ∉ name)
    (hm : name ≠ ascii "music") :
    resolveAction prev (name ++ byte ':' :: rest)
      = some (prev ++ name, emit (prev ++ name) rest) := by
  have h1 := IndexRune_append name rest _ hn
  have h2 := slice_prefix name (byte ':' :: rest)
  have h3 := slice_suffix name rest (byte ':')
  simp only [resolveAction, h1, h2, h3]
  simp [hm]

theorem fixStep_untagged_action (prev m : GoString) :
    fixStep prev ⟨[], byte '[' :: (m ++ [byte ']'])⟩ = resolveAction [] m := by
  have ht := Trim_bracketed (byte '[') (byte ']') m ws (by decide) (by decide)
  have hs := slice_inner (byte '[') (byte ']') m
  have h0 : byte '[' ≠ byte ':' := by decide
  unfold fixStep
  simp only [List.length_nil, lt_irrefl, false_and, if_false, List.head?_cons, h0, if_true]
  rw [ht, hs]
  rfl

/-- C9: for every `name` without `:` that is not exactly "music" and every
`rest`, `fixEpisode` on the single line `{"", "[" ++ name ++ ":" ++ rest ++ "]"}`
returns the single line `{trim name, trim rest}`. -/
theorem C9_embedded_speaker (name rest : GoString) (hn : byte ':' ∉ name)
    (hm : name ≠ ascii "music") :
    fixEpisode [⟨ascii "", ascii "[" ++ name ++ ascii ":" ++ rest ++ ascii "]"⟩]
      = some [⟨Trim name ws, Trim rest ws⟩] := by
  have e : ascii "[" ++ name ++ ascii ":" ++ rest ++ ascii "]"
      = byte '[' :: ((name ++ byte ':' :: rest) ++ [byte ']']) := by
    simp [ascii]
  have e0 : ascii "" = [] := rfl
  rw [e, e0, fixEpisode, fixEpisodeLoop, fixStep_untagged_action,
    resolveAction_speaker [] name rest hn hm]
  simp [fixEpisodeLoop, emit]

/-- C9 at "[Rarity: gasps]", which gives `{"Rarity", "gasps"}`. -/
theorem C9_embedded_speaker_witness :
    byte ':' ∉ ascii "Rarity" ∧ ascii "Rarity" ≠ ascii "music" ∧
      fixEpisode [⟨ascii "", ascii "[" ++ ascii "Rarity" ++ ascii ":" ++ ascii " gasps"
          ++ ascii "]"⟩]
        = some [⟨Trim (ascii "Rarity") ws, Trim (ascii " gasps") ws⟩] ∧
      ascii "[" ++ ascii "Rarity" ++ ascii ":" ++ ascii " gasps" ++ ascii "]"
        = ascii "[Rarity: gasps]" ∧
      Trim (ascii "Rarity") ws = ascii "Rarity" ∧ Trim (ascii " gasps") ws = ascii "gasps" :=
  ⟨by decide, by decide,
    C9_embedded_speaker (ascii "Rarity") (ascii " gasps") (by decide) (by decide),
    by decide, by decide, by decide⟩


/-! ## The extractor -/

theorem processLineLoop_closing_run (n : Nat) (line character : GoString) (lines : List Line)
    (rest : List Token) :
    processLineLoop ((n : Int) + 1) line character lines
        (List.replicate (n + 1) (Token.EndTag (ascii "dd")) ++ rest)
      = (flush lines character line, rest) := by
  induction n with
  | zero => simp [processLineLoop]
  | succ n ih =>
    have h : ¬ ((n : Int) + 1 + 1 - 1 ≤ 0) := by omega
    have e : (n : Int) + 1 + 1 - 1 = (n : Int) + 1 := by omega
    rw [List.replicate_succ, List.cons_append, processLineLoop]
    simp only [if_true, Nat.cast_add, Nat.cast_one, h, if_false, e]
    exact ih

theorem processLineLoop_lyrics (ts : List GoString) (hts : ∀ u ∈ ts, u ≠ []) (k : Nat)
    (line : GoString) (hl : line ≠ []) (lines : List Line) (rest : List Token) :
    processLineLoop ((k : Int) + 1) line [] lines
        (lyricTail ts ++ List.replicate (ts.length + k + 1) (Token.EndTag (ascii "dd")) ++ rest)
      = (lines ++ (line :: ts).map (fun u => ⟨[], u⟩), rest) := by
  induction ts generalizing k line lines with
  | nil =>
    have h : 0 < line.length := List.length_pos.mpr hl
    simp [lyricTail, processLineLoop_closing_run, flush, h]
  | cons u ts ih =>
    have h : 0 < line.length := List.length_pos.mpr hl
    have hu : u ≠ [] := hts u (List.mem_cons_self _ _)
    have ih1 := ih (fun v hv => hts v (List.mem_cons_of_mem _ hv)) (k + 1) u hu
      (lines ++ [⟨[], line⟩])
    have e : (u :: ts).length + k + 1 = ts.length + (k + 1) + 1 := by simp; omega
    rw [e]
    simp only [lyricTail, List.cons_append, List.nil_append, processLineLoop, if_true,
      flush, h]
    simp only [Nat.cast_add, Nat.cast_one] at ih1
    exact ih1.trans (by simp)

/-- C7: for every `d ≥ 1` and non-empty texts `t1, ..., td` (here `t1 :: ts`),
`processLine` on `Text t1, Start dd, Text t2, ..., Start dd, Text td` followed
by `d` `End dd` tokens appends exactly the `d` lines `{"", t1}, ..., {"", td}` in
order and returns at the `d`-th `End dd`: whatever follows it (`rest`) is left
unread. -/
theorem C7_nested_lyrics (lines : List Line) (t1 : GoString) (ts : List GoString)
    (rest : List Token) (h1 : t1 ≠ []) (hts : ∀ u ∈ ts, u ≠ []) :
    processLine lines (lyricStream t1 ts ++ rest)
      = (lines ++ (t1 :: ts).map (fun u => ⟨[], u⟩), rest) := by
  have h := processLineLoop_lyrics ts hts 0 t1 h1 lines rest
  simp only [Nat.cast_zero, zero_add, Nat.add_zero] at h
  simp only [processLine, lyricStream, List.cons_append, processLineLoop, List.nil_append]
  exact h

/-- C7 at depth 3 with the texts "la", "li", "lo", followed by one more token. -/
theorem C7_nested_lyrics_witness :
    ascii "la" ≠ [] ∧ (∀ u ∈ [ascii "li", ascii "lo"], u ≠ []) ∧
      processLine [] (lyricStream (ascii "la") [ascii "li", ascii "lo"] ++ [Token.Other])
        = ([] ++ (ascii "la" :: [ascii "li", ascii "lo"]).map (fun u => ⟨[], u⟩),
            [Token.Other]) ∧
      lyricStream (ascii "la") [ascii "li", ascii "lo"]
        = [Token.Text (ascii "la"), Token.StartTag (ascii "dd"), Token.Text (ascii "li"),
            Token.StartTag (ascii "dd"), Token.Text (ascii "lo"), Token.EndTag (ascii "dd"),
            Token.EndTag (ascii "dd"), Token.EndTag (ascii "dd")] :=
  ⟨by decide, by decide,
    C7_nested_lyrics [] (ascii "la") [ascii "li", ascii "lo"] [Token.Other] (by decide)
      (by decide),
    by decide⟩


theorem OpenAt_of_Balanced {body : List Token} (h : Balanced body) : OpenAt 1 body := by
  refine ⟨fun p hp => ?_, by rw [h.2]⟩
  have := h.1 p ((List.mem_inits _ _).mpr hp)
  omega

theorem OpenAt_pos {d : Nat} {body : List Token} (h : OpenAt d body) : 1 ≤ d := by
  have := h.1 [] (List.nil_prefix)
  simp [ddStarts, ddEnds] at this
  omega

theorem OpenAt_nil {d : Nat} (h : OpenAt d []) : d = 1 := by
  have := h.2
  simp [ddStarts, ddEnds] at this
  exact this

theorem OpenAt_start {d : Nat} {b : List Token} (h : OpenAt d (Token.StartTag (ascii "dd") :: b)) :
    OpenAt (d + 1) b := by
  refine ⟨fun p hp => ?_, ?_⟩
  · have := h.1 (Token.StartTag (ascii "dd") :: p) ((List.prefix_cons_inj _).mpr hp)
    simp [ddStarts, ddEnds, List.count_cons] at this ⊢
    omega
  · have := h.2
    simp [ddStarts, ddEnds, List.count_cons] at this ⊢
    omega

theorem OpenAt_end {d : Nat} {b : List Token} (h : OpenAt d (Token.EndTag (ascii "dd") :: b)) :
    2 ≤ d ∧ OpenAt (d - 1) b := by
  have h2 : 2 ≤ d := by
    have := h.1 [Token.EndTag (ascii "dd")] (by simp)
    simp [ddStarts, ddEnds, List.count_cons] at this
    omega
  refine ⟨h2, fun p hp => ?_, ?_⟩
  · have := h.1 (Token.EndTag (ascii "dd") :: p) ((List.prefix_cons_inj _).mpr hp)
    simp [ddStarts, ddEnds, List.count_cons] at this ⊢
    omega
  · have := h.2
    simp [ddStarts, ddEnds, List.count_cons] at this ⊢
    omega

theorem OpenAt_skip {d : Nat} {t : Token} {b : List Token} (h : OpenAt d (t :: b))
    (h1 : t ≠ Token.StartTag (ascii "dd")) (h2 : t ≠ Token.EndTag (ascii "dd")) :
    OpenAt d b := by
  refine ⟨fun p hp => ?_, ?_⟩
  · have := h.1 (t :: p) ((List.prefix_cons_inj _).mpr hp)
    simp [ddStarts, ddEnds, List.count_cons, h1, h2] at this ⊢
    omega
  · have := h.2
    simp [ddStarts, ddEnds, List.count_cons, h1, h2] at this ⊢
    omega


theorem loop_start_dd (d : Int) (l c : GoString) (ls : List Line) (z : List Token) :
    processLineLoop d l c ls (Token.StartTag (ascii "dd") :: z)
      = processLineLoop (d + 1) [] [] (flush ls c l) z := by
  cases z with
  | nil => simp [processLineLoop]
  | cons t z => cases t <;> simp [processLineLoop]

theorem loop_bold_name (d : Int) (c c1 : GoString) (ls : List Line) (z : List Token) :
    processLineLoop d [] c ls (Token.StartTag (ascii "b") :: Token.Text c1 :: z)
      = processLineLoop d [] c1 ls z := by
  have h : ascii "b" ≠ ascii "dd" := by decide
  rw [processLineLoop]
  simp [h]

theorem loop_start_pass (d : Int) (l c x : GoString) (ls : List Line) (z : List Token)
    (hx : x ≠ ascii "dd")
    (hz : x = ascii "b" → l = [] → ∀ c1 z1, z ≠ Token.Text c1 :: z1) :
    processLineLoop d l c ls (Token.StartTag x :: z) = processLineLoop d l c ls z := by
  have h : ascii "b" ≠ ascii "dd" := by decide
  by_cases hb : x = ascii "b" ∧ l = []
  · have hz1 := hz hb.1 hb.2
    obtain ⟨rfl, rfl⟩ := hb
    cases z with
    | nil => simp [processLineLoop, h]
    | cons t z =>
      cases t with
      | Text c1 => exact absurd rfl (hz1 c1 z)
      | StartTag y => simp [processLineLoop, h]
      | EndTag y => simp [processLineLoop, h]
      | Other => simp [processLineLoop, h]
  · cases z with
    | nil => simp [processLineLoop, hx, hb]
    | cons t z => cases t <;> simp [processLineLoop, hx, hb]

theorem loop_text (d : Int) (l c x : GoString) (ls : List Line) (z : List Token) :
    processLineLoop d l c ls (Token.Text x :: z) = processLineLoop d (l ++ x) c ls z := by
  rw [processLineLoop]

theorem loop_other (d : Int) (l c : GoString) (ls : List Line) (z : List Token) :
    processLineLoop d l c ls (Token.Other :: z) = processLineLoop d l c ls z := by
  rw [processLineLoop]

theorem loop_end_pass (d : Int) (l c x : GoString) (ls : List Line) (z : List Token)
    (hx : x ≠ ascii "dd") :
    processLineLoop d l c ls (Token.EndTag x :: z) = processLineLoop d l c ls z := by
  rw [processLineLoop]; simp [hx]

theorem loop_end_dd_return (d : Int) (l c : GoString) (ls : List Line) (z : List Token)
    (hd : d ≤ 1) :
    processLineLoop d l c ls (Token.EndTag (ascii "dd") :: z) = (flush ls c l, z) := by
  have h : d - 1 ≤ 0 := by omega
  rw [processLineLoop]; simp [h]

theorem loop_end_dd_continue (d : Int) (l c : GoString) (ls : List Line) (z : List Token)
    (hd : 1 < d) :
    processLineLoop d l c ls (Token.EndTag (ascii "dd") :: z)
      = processLineLoop (d - 1) l c ls z := by
  have h : ¬ (d - 1 ≤ 0) := by omega
  rw [processLineLoop]; simp [h]

theorem processLineLoop_matching_close (n : Nat) :
    ∀ (body : List Token), body.length ≤ n → ∀ (d : Nat) (line character : GoString)
      (lines : List Line) (rest : List Token), OpenAt d body →
      processLineLoop (d : Int) line character lines (body ++ Token.EndTag (ascii "dd") :: rest)
        = ((processLineLoop (d : Int) line character lines
            (body ++ [Token.EndTag (ascii "dd")])).1, rest) := by
  induction n with
  | zero =>
    intro body hb d line character lines rest ho
    have hnil : body = [] := List.length_eq_zero.mp (Nat.le_zero.mp hb)
    subst hnil
    have hd := OpenAt_nil ho
    subst hd
    simp [loop_end_dd_return]
  | succ n ih =>
    intro body hb d line character lines rest ho
    cases body with
    | nil =>
      have hd := OpenAt_nil ho
      subst hd
      simp [loop_end_dd_return]
    | cons t b =>
      have hbn : b.length ≤ n := by simpa using hb
      cases t with
      | StartTag x =>
        by_cases hx : x = ascii "dd"
        · subst hx
          have h1 := ih b hbn (d + 1) [] [] (flush lines character line) rest (OpenAt_start ho)
          rw [List.cons_append, List.cons_append, loop_start_dd, loop_start_dd]
          simpa using h1
        · have ho1 : OpenAt d b := OpenAt_skip ho (by simpa using hx) (by simp)
          by_cases hbold : ∃ c1 b1, x = ascii "b" ∧ line = [] ∧ b = Token.Text c1 :: b1
          · obtain ⟨c1, b1, hxb, hl, hb1⟩ := hbold
            subst hxb hl hb1
            have ho2 : OpenAt d b1 := OpenAt_skip ho1 (by simp) (by simp)
            have hb1 : b1.length ≤ n := by simp at hbn; omega
            have h1 := ih b1 hb1 d [] c1 lines rest ho2
            simp only [List.cons_append]
            rw [loop_bold_name, loop_bold_name]
            exact h1
          · have h1 := ih b hbn d line character lines rest ho1
            rw [List.cons_append, List.cons_append, loop_start_pass, loop_start_pass]
            · exact h1
            · exact hx
            · intro hxb hl c1 z1 hz
              cases b with
              | nil => simp at hz
              | cons t1 b1 =>
                simp only [List.cons_append, List.cons.injEq] at hz
                exact hbold ⟨c1, b1, hxb, hl, by rw [hz.1]⟩
            · exact hx
            · intro hxb hl c1 z1 hz
              cases b with
              | nil => simp at hz
              | cons t1 b1 =>
                simp only [List.cons_append, List.cons.injEq] at hz
                exact hbold ⟨c1, b1, hxb, hl, by rw [hz.1]⟩
      | EndTag x =>
        by_cases hx : x = ascii "dd"
        · subst hx
          obtain ⟨h2, ho1⟩ := OpenAt_end ho
          have h1 := ih b hbn (d - 1) line character lines rest ho1
          have e : ((d - 1 : Nat) : Int) = (d : Int) - 1 := by omega
          rw [e] at h1
          rw [List.cons_append, List.cons_append, loop_end_dd_continue _ _ _ _ _ (by omega),
            loop_end_dd_continue _ _ _ _ _ (by omega)]
          exact h1
        · have ho1 : OpenAt d b := OpenAt_skip ho (by simp) (by simpa using hx)
          have h1 := ih b hbn d line character lines rest ho1
          rw [List.cons_append, List.cons_append, loop_end_pass _ _ _ _ _ _ hx,
            loop_end_pass _ _ _ _ _ _ hx]
          exact h1
      | Text x =>
        have ho1 : OpenAt d b := OpenAt_skip ho (by simp) (by simp)
        have h1 := ih b hbn d (line ++ x) character lines rest ho1
        rw [List.cons_append, List.cons_append, loop_text, loop_text]
        exact h1
      | Other =>
        have ho1 : OpenAt d b := OpenAt_skip ho (by simp) (by simp)
        have h1 := ih b hbn d line character lines rest ho1
        rw [List.cons_append, List.cons_append, loop_other, loop_other]
        exact h1

theorem processLine_matching_close (lines : List Line) (body rest : List Token)
    (hb : Balanced body) :
    processLine lines (body ++ Token.EndTag (ascii "dd") :: rest)
      = ((processLine lines (body ++ [Token.EndTag (ascii "dd")])).1, rest) :=
  processLineLoop_matching_close body.length body (Nat.le_refl _) 1 [] [] lines rest
    (OpenAt_of_Balanced hb)

/-- C6: for every balanced `body` and every `rest`, `processLine` on
`body ++ [End dd] ++ rest` returns with exactly `rest` left unread, and the
lines it returns are those it returns on `body ++ [End dd]` alone: it reads
`body ++ [End dd]` and nothing more, so the depth, started at 1, reaches 0 at
that `End dd` and not before. -/
theorem C6_stops_at_matching_close (lines : List Line) (body rest : List Token)
    (hb : Balanced body) :
    processLine lines (body ++ [Token.EndTag (ascii "dd")] ++ rest)
      = ((processLine lines (body ++ [Token.EndTag (ascii "dd")])).1, rest) := by
  have h := processLine_matching_close lines body rest hb
  simpa using h

/-- C6 at a body in which a bold start at the beginning of a line is followed
by a nested `Start dd` (a peeked non-text token), with two tokens after the
matching close. -/
theorem C6_stops_at_matching_close_witness :
    Balanced [Token.StartTag (ascii "b"), Token.StartTag (ascii "dd"), Token.Text (ascii "la"),
        Token.EndTag (ascii "dd")] ∧
      processLine [] ([Token.StartTag (ascii "b"), Token.StartTag (ascii "dd"),
          Token.Text (ascii "la"), Token.EndTag (ascii "dd")] ++ [Token.EndTag (ascii "dd")]
          ++ [Token.Text (ascii "x"), Token.EndTag (ascii "dd")])
        = ((processLine [] ([Token.StartTag (ascii "b"), Token.StartTag (ascii "dd"),
            Token.Text (ascii "la"), Token.EndTag (ascii "dd")]
            ++ [Token.EndTag (ascii "dd")])).1,
          [Token.Text (ascii "x"), Token.EndTag (ascii "dd")]) :=
  ⟨by decide, C6_stops_at_matching_close [] _ _ (by decide)⟩

/-! ## The episode loop -/

theorem processLineLoop_unread_le (n : Nat) :
    ∀ (z : List Token), z.length ≤ n → ∀ (d : Int) (l c : GoString) (ls : List Line),
      (processLineLoop d l c ls z).2.length ≤ z.length := by
  induction n with
  | zero =>
    intro z hz d l c ls
    have hnil : z = [] := List.length_eq_zero.mp (Nat.le_zero.mp hz)
    subst hnil
    simp [processLineLoop]
  | succ n ih =>
    intro z hz d l c ls
    cases z with
    | nil => simp [processLineLoop]
    | cons t z =>
      have hzn : z.length ≤ n := by simpa using hz
      cases t with
      | StartTag x =>
        by_cases hx : x = ascii "dd"
        · subst hx
          rw [loop_start_dd]
          exact Nat.le_succ_of_le (ih z hzn _ _ _ _)
        · by_cases hbold : ∃ c1 z1, x = ascii "b" ∧ l = [] ∧ z = Token.Text c1 :: z1
          · obtain ⟨c1, z1, hxb, hl, hz1⟩ := hbold
            subst hxb hl hz1
            rw [loop_bold_name]
            have h1 : z1.length ≤ n := by simp at hzn; omega
            have := ih z1 h1 d [] c1 ls
            simp only [List.length_cons]
            omega
          · rw [loop_start_pass _ _ _ _ _ _ hx
              (fun hxb hl c1 z1 hz1 => hbold ⟨c1, z1, hxb, hl, hz1⟩)]
            exact Nat.le_succ_of_le (ih z hzn _ _ _ _)
      | EndTag x =>
        by_cases hx : x = ascii "dd"
        · subst hx
          by_cases hd : d ≤ 1
          · rw [loop_end_dd_return _ _ _ _ _ hd]
            simp
          · rw [loop_end_dd_continue _ _ _ _ _ (by omega)]
            exact Nat.le_succ_of_le (ih z hzn _ _ _ _)
        · rw [loop_end_pass _ _ _ _ _ _ hx]
          exact Nat.le_succ_of_le (ih z hzn _ _ _ _)
      | Text x =>
        rw [loop_text]
        exact Nat.le_succ_of_le (ih z hzn _ _ _ _)
      | Other =>
        rw [loop_other]
        exact Nat.le_succ_of_le (ih z hzn _ _ _ _)

theorem processLine_unread_le (lines : List Line) (z : List Token) :
    (processLine lines z).2.length ≤ z.length :=
  processLineLoop_unread_le z.length z (Nat.le_refl _) 1 [] [] lines

/-- The length of the token list is enough fuel for the episode loop. -/
theorem processEpisodeLoop_fuel (fuel : Nat) :
    ∀ (lines : List Line) (ts : List Token), ts.length ≤ fuel →
      ∃ r, processEpisodeLoop fuel lines ts = some r := by
  induction fuel with
  | zero =>
    intro lines ts hts
    have hnil : ts = [] := List.length_eq_zero.mp (Nat.le_zero.mp hts)
    subst hnil
    exact ⟨lines, by simp [processEpisodeLoop]⟩
  | succ fuel ih =>
    intro lines ts hts
    cases ts with
    | nil => exact ⟨lines, by simp [processEpisodeLoop]⟩
    | cons t z =>
      have hz : z.length ≤ fuel := by simpa using hts
      cases t with
      | StartTag x =>
        by_cases hx : x = ascii "dd"
        · have h1 := processLine_unread_le lines z
          simpa [processEpisodeLoop, hx] using ih _ _ (le_trans h1 hz)
        · simpa [processEpisodeLoop, hx] using ih lines z hz
      | EndTag x =>
        by_cases hx : x = ascii "dd"
        · exact ⟨lines, by simp [processEpisodeLoop, hx]⟩
        · simpa [processEpisodeLoop, hx] using ih lines z hz
      | Text x => simpa [processEpisodeLoop] using ih lines z hz
      | Other => simpa [processEpisodeLoop] using ih lines z hz

/-- More fuel does not change a result of the episode loop. -/
theorem processEpisodeLoop_mono (fuel : Nat) :
    ∀ (lines : List Line) (ts : List Token) (r : List Line),
      processEpisodeLoop fuel lines ts = some r →
      ∀ k, processEpisodeLoop (fuel + k) lines ts = some r := by
  induction fuel with
  | zero =>
    intro lines ts r h k
    cases ts with
    | nil =>
      cases k <;> simpa [processEpisodeLoop] using h
    | cons t z => simp [processEpisodeLoop] at h
  | succ fuel ih =>
    intro lines ts r h k
    have e : fuel + 1 + k = (fuel + k) + 1 := by omega
    rw [e]
    cases ts with
    | nil => simpa [processEpisodeLoop] using h
    | cons t z =>
      cases t with
      | StartTag x =>
        by_cases hx : x = ascii "dd"
        · simp only [processEpisodeLoop, hx, if_true] at h ⊢
          exact ih _ _ _ h k
        · simp only [processEpisodeLoop, hx, if_false] at h ⊢
          exact ih _ _ _ h k
      | EndTag x =>
        by_cases hx : x = ascii "dd"
        · simpa [processEpisodeLoop, hx] using h
        · simp only [processEpisodeLoop, hx, if_false] at h ⊢
          exact ih _ _ _ h k
      | Text x =>
        simp only [processEpisodeLoop] at h ⊢
        exact ih _ _ _ h k
      | Other =>
        simp only [processEpisodeLoop] at h ⊢
        exact ih _ _ _ h k

theorem processEpisodeLoop_stray_close {pre : List Token} (h : TopLevel pre)
    (rest : List Token) :
    ∀ (lines : List Line) (fuel : Nat) (r : List Line),
      processEpisodeLoop fuel lines pre = some r →
      processEpisodeLoop (fuel + 1) lines (pre ++ Token.EndTag (ascii "dd") :: rest)
        = some r := by
  induction h with
  | nil =>
    intro lines fuel r hr
    cases fuel <;> simpa [processEpisodeLoop] using hr
  | token t ts h1 h2 _ ih =>
    intro lines fuel r hr
    cases fuel with
    | zero => simp [processEpisodeLoop] at hr
    | succ fuel =>
      cases t with
      | StartTag x =>
        have hx : x ≠ ascii "dd" := by simpa using h1
        simp only [List.cons_append, processEpisodeLoop, hx, if_false] at hr ⊢
        exact ih _ _ _ hr
      | EndTag x =>
        have hx : x ≠ ascii "dd" := by simpa using h2
        simp only [List.cons_append, processEpisodeLoop, hx, if_false] at hr ⊢
        exact ih _ _ _ hr
      | Text x =>
        simp only [List.cons_append, processEpisodeLoop] at hr ⊢
        exact ih _ _ _ hr
      | Other =>
        simp only [List.cons_append, processEpisodeLoop] at hr ⊢
        exact ih _ _ _ hr
  | container body ts hb _ ih =>
    intro lines fuel r hr
    cases fuel with
    | zero => simp [processEpisodeLoop] at hr
    | succ fuel =>
      have e1 := processLine_matching_close lines body ts hb
      have e2 := processLine_matching_close lines body
        (ts ++ Token.EndTag (ascii "dd") :: rest) hb
      have e3 : (Token.StartTag (ascii "dd") :: (body ++ Token.EndTag (ascii "dd") :: ts))
            ++ Token.EndTag (ascii "dd") :: rest
          = Token.StartTag (ascii "dd")
            :: (body ++ Token.EndTag (ascii "dd") :: (ts ++ Token.EndTag (ascii "dd") :: rest)) := by
        simp
      rw [e3]
      simp only [processEpisodeLoop, if_true, e1, e2] at hr ⊢
      exact ih _ _ _ hr

/-- C4 (as stated, refuted): a stream with one complete container followed by
an `End dd` at top level does not return the empty list; the line of the
container is returned. -/
theorem C4_mismatched_close_not_empty :
    TopLevel [Token.StartTag (ascii "dd"), Token.Text (ascii "hi"), Token.EndTag (ascii "dd")] ∧
      processEpisode [Token.StartTag (ascii "dd"), Token.Text (ascii "hi"),
          Token.EndTag (ascii "dd"), Token.EndTag (ascii "dd")]
        = some [⟨ascii "", ascii "hi"⟩] ∧
      processEpisode [Token.StartTag (ascii "dd"), Token.Text (ascii "hi"),
          Token.EndTag (ascii "dd"), Token.EndTag (ascii "dd")]
        ≠ some [] :=
  ⟨TopLevel.container [Token.Text (ascii "hi")] [] (by decide) TopLevel.nil,
    by decide, by decide⟩

/-- C4 (amended): when an `End dd` is met at top level, after a token list
`pre` read entirely at top level, the loop of `processEpisode` stops at that
token and returns the lines extracted from `pre`, that is, what it returns on
`pre` alone; the tokens after the `End dd` (`rest`) have no effect. -/
theorem C4_mismatched_close_keeps_lines (pre rest : List Token) (h : TopLevel pre) :
    ∃ ls, processEpisode pre = some ls ∧
      processEpisode (pre ++ Token.EndTag (ascii "dd") :: rest) = some ls := by
  obtain ⟨ls, hls⟩ := processEpisodeLoop_fuel pre.length [] pre (Nat.le_refl _)
  refine ⟨ls, hls, ?_⟩
  have h1 := processEpisodeLoop_stray_close h rest [] pre.length ls hls
  have h2 := processEpisodeLoop_mono _ _ _ _ h1 rest.length
  have e : (pre ++ Token.EndTag (ascii "dd") :: rest).length = pre.length + 1 + rest.length := by
    simp; omega
  rw [processEpisode, e]
  exact h2

/-- C4 (amended) at one complete container followed by a stray `End dd` and a
further container. -/
theorem C4_mismatched_close_keeps_lines_witness :
    TopLevel [Token.StartTag (ascii "dd"), Token.Text (ascii "hi"), Token.EndTag (ascii "dd")] ∧
      (∃ ls, processEpisode [Token.StartTag (ascii "dd"), Token.Text (ascii "hi"),
            Token.EndTag (ascii "dd")] = some ls ∧
        processEpisode ([Token.StartTag (ascii "dd"), Token.Text (ascii "hi"),
            Token.EndTag (ascii "dd")] ++ Token.EndTag (ascii "dd") ::
            [Token.StartTag (ascii "dd"), Token.Text (ascii "yo"), Token.EndTag (ascii "dd")])
          = some ls) ∧
      processEpisode [Token.StartTag (ascii "dd"), Token.Text (ascii "hi"),
          Token.EndTag (ascii "dd")] = some [⟨ascii "", ascii "hi"⟩] :=
  ⟨TopLevel.container [Token.Text (ascii "hi")] [] (by decide) TopLevel.nil,
    C4_mismatched_close_keeps_lines _ _
      (TopLevel.container [Token.Text (ascii "hi")] [] (by decide) TopLevel.nil),
    by decide⟩

/-! ## Re-running the resolver -/

theorem Trim_idempotent (s cutset : GoString) : Trim (Trim s cutset) cutset = Trim s cutset := by
  unfold Trim
  generalize hr : s.rdropWhile (fun b => b ∈ cutset) = r
  have hlast : ∀ hl : r ≠ [], ¬ (decide (r.getLast hl ∈ cutset) = true) := by
    intro hl
    subst hr
    exact List.rdropWhile_last_not (fun b => decide (b ∈ cutset)) s hl
  have h1 : (r.dropWhile (fun b => b ∈ cutset)).rdropWhile (fun b => b ∈ cutset)
      = r.dropWhile (fun b => b ∈ cutset) := by
    rw [List.rdropWhile_eq_self_iff]
    intro hl
    obtain ⟨u, hu⟩ := List.dropWhile_suffix (fun b => decide (b ∈ cutset)) (l := r)
    have hr0 : r ≠ [] := by
      intro h0
      rw [h0] at hl
      exact hl rfl
    have e : r.getLast hr0 = (r.dropWhile (fun b => b ∈ cutset)).getLast hl := by
      have := List.getLast_append' u _ hl
      rw [← this]
      exact List.getLast_congr _ _ hu.symm
    rw [← e]
    exact hlast hr0
  rw [h1, List.dropWhile_idempotent]


theorem resolveAction_emits (prev text : GoString) (p1 : GoString) (em : List Line)
    (h : resolveAction prev text = some (p1, em)) : ∃ a b, em = emit a b := by
  unfold resolveAction at h
  simp only [] at h
  split at h
  · cases h1 : slice text 0 (IndexRune text (byte ':')) with
    | none => simp [h1] at h
    | some pre =>
      simp only [h1, Option.some_bind] at h
      split at h
      · simp only [Option.some.injEq, Prod.mk.injEq] at h
        exact ⟨_, _, h.2.symm⟩
      · cases h2 : slice text (IndexRune text (byte ':') + 1) text.length with
        | none => simp [h2] at h
        | some post =>
          simp only [h2, Option.some_bind, Option.some.injEq, Prod.mk.injEq] at h
          exact ⟨_, _, h.2.symm⟩
  · simp only [Option.some.injEq, Prod.mk.injEq] at h
    exact ⟨_, _, h.2.symm⟩

theorem fixStep_emits (prev : GoString) (v : Line) (p1 : GoString) (em : List Line)
    (h : fixStep prev v = some (p1, em)) : em = [] ∨ ∃ a b, em = emit a b := by
  unfold fixStep at h
  simp only [] at h
  split at h
  · simp only [Option.some.injEq, Prod.mk.injEq] at h
    exact Or.inl h.2.symm
  · right
    split at h
    · simp at h
    · split at h
      · cases h1 : slice v.Text 1 v.Text.length with
        | none => simp [h1] at h
        | some t =>
          simp only [h1, Option.some_bind, Option.some.injEq, Prod.mk.injEq] at h
          exact ⟨_, _, h.2.symm⟩
      · split at h
        · split at h
          · cases h1 : slice (Trim v.Text ws) 1 (((Trim v.Text ws).length : Int) - 1) with
            | none => simp [h1] at h
            | some t =>
              simp only [h1, Option.some_bind] at h
              exact resolveAction_emits _ _ _ _ h
          · exact resolveAction_emits _ _ _ _ h
        · split at h
          · split at h
            · cases h1 : slice v.Text 0 (IndexRune v.Text (byte ':')) with
              | none => simp [h1] at h
              | some pre =>
                cases h2 : slice v.Text (IndexRune v.Text (byte ':') + 1) v.Text.length with
                | none => simp [h1, h2] at h
                | some post =>
                  simp only [h1, h2, Option.some_bind, Option.some.injEq, Prod.mk.injEq] at h
                  exact ⟨_, _, h.2.symm⟩
            · simp only [Option.some.injEq, Prod.mk.injEq] at h
              exact ⟨_, _, h.2.symm⟩
          · simp only [Option.some.injEq, Prod.mk.injEq] at h
            exact ⟨_, _, h.2.symm⟩


theorem fixEpisodeLoop_trimmed (L : List Line) :
    ∀ (p : GoString) (out O : List Line), fixEpisodeLoop p out L = some O →
      (∀ l ∈ out, Trim l.Character ws = l.Character ∧ Trim l.Text ws = l.Text) →
      ∀ l ∈ O, Trim l.Character ws = l.Character ∧ Trim l.Text ws = l.Text := by
  induction L with
  | nil =>
    intro p out O h hout
    simp only [fixEpisodeLoop, Option.some.injEq] at h
    subst h
    exact hout
  | cons v L ih =>
    intro p out O h hout
    rw [fixEpisodeLoop] at h
    cases hs : fixStep p v with
    | none => simp [hs] at h
    | some r =>
      obtain ⟨p1, em⟩ := r
      simp only [hs] at h
      refine ih p1 (out ++ em) O h ?_
      intro l hl
      rcases List.mem_append.mp hl with hl | hl
      · exact hout l hl
      · rcases fixStep_emits p v p1 em hs with he | ⟨a, b, he⟩
        · subst he
          simp at hl
        · subst he
          simp only [emit, List.mem_singleton] at hl
          subst hl
          exact ⟨Trim_idempotent a ws, Trim_idempotent b ws⟩

theorem fixStep_untagged_plain (p : GoString) (v : Line) (hc : v.Character = [])
    (hne : v.Text ≠ []) (h1 : v.Text.head? ≠ some (byte ':'))
    (h2 : v.Text.head? ≠ some (byte '[')) :
    fixStep p v = some (p, emit p v.Text) := by
  obtain ⟨c, t⟩ := v
  simp only at hc hne h1 h2
  subst hc
  cases t with
  | nil => exact absurd rfl hne
  | cons x t =>
    have hx1 : x ≠ byte ':' := by simpa using h1
    have hx2 : x ≠ byte '[' := by simpa using h2
    simp [fixStep, hx1, hx2]

theorem fixStep_tagged_plain (p : GoString) (v : Line) (hc : v.Character ≠ [])
    (hb : v.Character.head? ≠ some (byte '['))
    (hne : v.Text ≠ []) (h1 : v.Text.head? ≠ some (byte ':'))
    (h2 : v.Text.head? ≠ some (byte '[')) (h3 : byte ':' ∉ v.Text) :
    fixStep p v = some (v.Character, emit v.Character v.Text) := by
  obtain ⟨c, t⟩ := v
  simp only at hc hb hne h1 h2 h3
  have hi := IndexRune_of_not_mem t _ h3
  cases t with
  | nil => exact absurd rfl hne
  | cons x t =>
    cases c with
    | nil => exact absurd rfl hc
    | cons y c =>
      have hx1 : x ≠ byte ':' := by simpa using h1
      have hx2 : x ≠ byte '[' := by simpa using h2
      have hy : y ≠ byte '[' := by simpa using hb
      simp [fixStep, hx1, hx2, hy, hi]

theorem fixEpisodeLoop_settled (O : List Line) :
    ∀ (p : GoString) (out : List Line),
      (∀ l ∈ O, Trim l.Character ws = l.Character ∧ Trim l.Text ws = l.Text) →
      (∀ l ∈ O, l.Text ≠ [] ∧ l.Text.head? ≠ some (byte ':') ∧
        l.Text.head? ≠ some (byte '[')) →
      (∀ l ∈ O, l.Character ≠ [] →
        l.Character.head? ≠ some (byte '[') ∧ byte ':' ∉ l.Text) →
      O.Pairwise (fun a b => b.Character = [] → a.Character = []) →
      (Trim p ws = [] ∨ ∀ l ∈ O, l.Character ≠ []) →
      fixEpisodeLoop p out O = some (out ++ O) := by
  induction O with
  | nil => intro p out _ _ _ _ _; simp [fixEpisodeLoop]
  | cons v O ih =>
    intro p out htrim htext htag hord hp
    have hv := List.mem_cons_self v O
    obtain ⟨ht1, ht2⟩ := htrim v hv
    obtain ⟨hne, h1, h2⟩ := htext v hv
    have htrim1 := fun l hl => htrim l (List.mem_cons_of_mem v hl)
    have htext1 := fun l hl => htext l (List.mem_cons_of_mem v hl)
    have htag1 := fun l hl => htag l (List.mem_cons_of_mem v hl)
    have hord1 := (List.pairwise_cons.mp hord).2
    have hordv := (List.pairwise_cons.mp hord).1
    rw [fixEpisodeLoop]
    by_cases hc : v.Character = []
    · have hp0 : Trim p ws = [] := by
        rcases hp with hp | hp
        · exact hp
        · exact absurd hc (hp v hv)
      rw [fixStep_untagged_plain p v hc hne h1 h2]
      have e : emit p v.Text = [v] := by
        obtain ⟨c, t⟩ := v
        simp only at hc ht2
        simp [emit, hp0, hc, ht2]
      simp only [e]
      rw [ih p (out ++ [v]) htrim1 htext1 htag1 hord1 (Or.inl hp0)]
      simp
    · obtain ⟨hb, h3⟩ := htag v hv hc
      rw [fixStep_tagged_plain p v hc hb hne h1 h2 h3]
      have e : emit v.Character v.Text = [v] := by
        obtain ⟨c, t⟩ := v
        simp only at ht1 ht2
        simp [emit, ht1, ht2]
      simp only [e]
      rw [ih v.Character (out ++ [v]) htrim1 htext1 htag1 hord1
        (Or.inr (fun l hl h0 => hc (hordv l hl h0)))]
      simp


/-- C2 (as stated, refuted): three outputs of `fixEpisode` whose texts are
non-empty and begin with neither `:` nor `[`, and which a second run changes.
(1) A text that still contains a colon under a non-empty character: the part
before the colon is appended to the speaker. (2) A character that begins with
`[`: the line is taken for a song heading and dropped. (3) A line with an empty
character after a line with a speaker: it inherits that speaker. -/
theorem C2_not_idempotent :
    (fixEpisode [⟨ascii "Twilight", ascii ":Spike: come here"⟩]
        = some [⟨ascii "Twilight", ascii "Spike: come here"⟩] ∧
      (∀ l ∈ [(⟨ascii "Twilight", ascii "Spike: come here"⟩ : Line)],
        l.Text ≠ [] ∧ l.Text.head? ≠ some (byte ':') ∧ l.Text.head? ≠ some (byte '[')) ∧
      fixEpisode [⟨ascii "Twilight", ascii "Spike: come here"⟩]
        = some [⟨ascii "TwilightSpike", ascii "come here"⟩] ∧
      fixEpisode [⟨ascii "Twilight", ascii "Spike: come here"⟩]
        ≠ some [⟨ascii "Twilight", ascii "Spike: come here"⟩]) ∧
    (fixEpisode [⟨ascii "", ascii "[[Twilight]: Hello]"⟩]
        = some [⟨ascii "[Twilight]", ascii "Hello"⟩] ∧
      (∀ l ∈ [(⟨ascii "[Twilight]", ascii "Hello"⟩ : Line)],
        l.Text ≠ [] ∧ l.Text.head? ≠ some (byte ':') ∧ l.Text.head? ≠ some (byte '[')) ∧
      fixEpisode [⟨ascii "[Twilight]", ascii "Hello"⟩] = some [] ∧
      fixEpisode [⟨ascii "[Twilight]", ascii "Hello"⟩]
        ≠ some [⟨ascii "[Twilight]", ascii "Hello"⟩]) ∧
    (fixEpisode [⟨ascii "Spike", ascii ":Yes"⟩, ⟨ascii "", ascii "[He nods]"⟩]
        = some [⟨ascii "Spike", ascii "Yes"⟩, ⟨ascii "", ascii "He nods"⟩] ∧
      (∀ l ∈ [(⟨ascii "Spike", ascii "Yes"⟩ : Line), ⟨ascii "", ascii "He nods"⟩],
        l.Text ≠ [] ∧ l.Text.head? ≠ some (byte ':') ∧ l.Text.head? ≠ some (byte '[')) ∧
      fixEpisode [⟨ascii "Spike", ascii "Yes"⟩, ⟨ascii "", ascii "He nods"⟩]
        = some [⟨ascii "Spike", ascii "Yes"⟩, ⟨ascii "Spike", ascii "He nods"⟩] ∧
      fixEpisode [⟨ascii "Spike", ascii "Yes"⟩, ⟨ascii "", ascii "He nods"⟩]
        ≠ some [⟨ascii "Spike", ascii "Yes"⟩, ⟨ascii "", ascii "He nods"⟩]) := by
  decide

/-- C2 (amended): for every raw line sequence `L` on which `fixEpisode` returns
`O`, if every line of `O` has a non-empty text that begins with neither `:` nor
`[`, every line of `O` with a non-empty character has a character that does not
begin with `[` and a text without `:`, and no line of `O` with an empty
character comes after a line with a non-empty character, then
`fixEpisode O = O`. -/
theorem C2_idempotent_on_resolved (L O : List Line) (h : fixEpisode L = some O)
    (htext : ∀ l ∈ O, l.Text ≠ [] ∧ l.Text.head? ≠ some (byte ':') ∧
      l.Text.head? ≠ some (byte '['))
    (htag : ∀ l ∈ O, l.Character ≠ [] →
      l.Character.head? ≠ some (byte '[') ∧ byte ':' ∉ l.Text)
    (hord : O.Pairwise (fun a b => b.Character = [] → a.Character = [])) :
    fixEpisode O = some O := by
  have htrim := fixEpisodeLoop_trimmed L [] [] O h (by simp)
  have := fixEpisodeLoop_settled O [] [] htrim htext htag hord (Or.inl (by decide))
  simpa [fixEpisode] using this

/-- C2 (amended) at an action line followed by a dialogue line and its
continuation. -/
theorem C2_idempotent_on_resolved_witness :
    fixEpisode [⟨ascii "", ascii "[The door opens]"⟩, ⟨ascii "Twilight", ascii ":Hello"⟩,
        ⟨ascii "", ascii "And more"⟩]
      = some [⟨ascii "", ascii "The door opens"⟩, ⟨ascii "Twilight", ascii "Hello"⟩,
        ⟨ascii "Twilight", ascii "And more"⟩] ∧
    (∀ l ∈ [(⟨ascii "", ascii "The door opens"⟩ : Line), ⟨ascii "Twilight", ascii "Hello"⟩,
        ⟨ascii "Twilight", ascii "And more"⟩],
      l.Text ≠ [] ∧ l.Text.head? ≠ some (byte ':') ∧ l.Text.head? ≠ some (byte '[')) ∧
    (∀ l ∈ [(⟨ascii "", ascii "The door opens"⟩ : Line), ⟨ascii "Twilight", ascii "Hello"⟩,
        ⟨ascii "Twilight", ascii "And more"⟩],
      l.Character ≠ [] → l.Character.head? ≠ some (byte '[') ∧ byte ':' ∉ l.Text) ∧
    [(⟨ascii "", ascii "The door opens"⟩ : Line), ⟨ascii "Twilight", ascii "Hello"⟩,
        ⟨ascii "Twilight", ascii "And more"⟩].Pairwise
      (fun a b => b.Character = [] → a.Character = []) ∧
    fixEpisode [⟨ascii "", ascii "The door opens"⟩, ⟨ascii "Twilight", ascii "Hello"⟩,
        ⟨ascii "Twilight", ascii "And more"⟩]
      = some [⟨ascii "", ascii "The door opens"⟩, ⟨ascii "Twilight", ascii "Hello"⟩,
        ⟨ascii "Twilight", ascii "And more"⟩] :=
  ⟨by decide, by decide, by decide, by decide,
    C2_idempotent_on_resolved
      [⟨ascii "", ascii "[The door opens]"⟩, ⟨ascii "Twilight", ascii ":Hello"⟩,
        ⟨ascii "", ascii "And more"⟩]
      [⟨ascii "", ascii "The door opens"⟩, ⟨ascii "Twilight", ascii "Hello"⟩,
        ⟨ascii "Twilight", ascii "And more"⟩]
      (by decide) (by decide) (by decide) (by decide)⟩

/-! ## Single steps of the resolver -/

theorem resolveAction_plain (prev text : GoString) (h : byte ':' ∉ text) :
    resolveAction prev text = some (prev, emit prev text) := by
  simp [resolveAction, IndexRune_of_not_mem text _ h]

theorem resolveAction_music (prev rest : GoString) :
    resolveAction prev (ascii "music" ++ byte ':' :: rest)
      = some (prev, emit prev (ascii "music" ++ byte ':' :: rest)) := by
  have h1 := IndexRune_append (ascii "music") rest (byte ':') (by decide)
  have h2 := slice_prefix (ascii "music") (byte ':' :: rest)
  simp only [resolveAction, h1, h2]
  simp

theorem fixStep_heading (p : GoString) (v : Line) (h : v.Character.head? = some (byte '[')) :
    fixStep p v = some (Trim v.Character (ascii "[]"), []) := by
  obtain ⟨c, t⟩ := v
  cases c with
  | nil => simp at h
  | cons x c =>
    simp only [List.head?_cons, Option.some.injEq] at h
    simp [fixStep, h]

theorem fixStep_dialogue (p c body : GoString) (hc : c.head? ≠ some (byte '[')) :
    fixStep p ⟨c, byte ':' :: body⟩
      = some (if c = [] then p else c, emit (if c = [] then p else c) body) := by
  have hs := slice_tail (byte ':') body
  cases c with
  | nil => simp [fixStep, hs]
  | cons x c =>
    have hx : x ≠ byte '[' := by simpa using hc
    simp [fixStep, hs, hx]

/-- C11: for every `body` without `:`, `fixEpisode` on the single line
`{"", "[" ++ body ++ "]"}` returns the single line `{"", trim body}`: the
surrounding brackets are stripped and the speaker stays empty. -/
theorem C11_action_without_colon (body : GoString) (hb : byte ':' ∉ body) :
    fixEpisode [⟨ascii "", ascii "[" ++ body ++ ascii "]"⟩]
      = some [⟨ascii "", Trim body ws⟩] := by
  have e : ascii "[" ++ body ++ ascii "]" = byte '[' :: (body ++ [byte ']']) := by
    simp [ascii]
  have e0 : ascii "" = [] := rfl
  have et : Trim [] ws = [] := by decide
  rw [e, e0, fixEpisode, fixEpisodeLoop, fixStep_untagged_action, resolveAction_plain [] body hb]
  simp [fixEpisodeLoop, emit, et]

/-- C11 at "[Spike rolls his eyes]", which gives `{"", "Spike rolls his eyes"}`. -/
theorem C11_action_without_colon_witness :
    byte ':' ∉ ascii "Spike rolls his eyes" ∧
      fixEpisode [⟨ascii "", ascii "[" ++ ascii "Spike rolls his eyes" ++ ascii "]"⟩]
        = some [⟨ascii "", Trim (ascii "Spike rolls his eyes") ws⟩] ∧
      ascii "[" ++ ascii "Spike rolls his eyes" ++ ascii "]" = ascii "[Spike rolls his eyes]" ∧
      Trim (ascii "Spike rolls his eyes") ws = ascii "Spike rolls his eyes" :=
  ⟨by decide, C11_action_without_colon (ascii "Spike rolls his eyes") (by decide),
    by decide, by decide⟩

/-- C12: for every non-empty character tag `c` not beginning with `[` and every
non-empty text `t` that begins with neither `:` nor `[` and contains no `:`,
`fixEpisode` on the single line `{c, t}` returns the single line
`{trim c, trim t}`: the line is emitted with its own text and its own tag. -/
theorem C12_continuation_without_separator (c t : GoString) (hc : c ≠ [])
    (hb : c.head? ≠ some (byte '[')) (ht : t ≠ []) (h1 : t.head? ≠ some (byte ':'))
    (h2 : t.head? ≠ some (byte '[')) (h3 : byte ':' ∉ t) :
    fixEpisode [⟨c, t⟩] = some [⟨Trim c ws, Trim t ws⟩] := by
  rw [fixEpisode, fixEpisodeLoop, fixStep_tagged_plain [] ⟨c, t⟩ hc hb ht h1 h2 h3]
  simp [fixEpisodeLoop, emit]

/-- C12 at `{"Twilight", "Hello there"}`. -/
theorem C12_continuation_without_separator_witness :
    ascii "Twilight" ≠ [] ∧ (ascii "Twilight").head? ≠ some (byte '[') ∧
      ascii "Hello there" ≠ [] ∧ (ascii "Hello there").head? ≠ some (byte ':') ∧
      (ascii "Hello there").head? ≠ some (byte '[') ∧ byte ':' ∉ ascii "Hello there" ∧
      fixEpisode [⟨ascii "Twilight", ascii "Hello there"⟩]
        = some [⟨Trim (ascii "Twilight") ws, Trim (ascii "Hello there") ws⟩] ∧
      Trim (ascii "Twilight") ws = ascii "Twilight" ∧
      Trim (ascii "Hello there") ws = ascii "Hello there" :=
  ⟨by decide, by decide, by decide, by decide, by decide, by decide,
    C12_continuation_without_separator (ascii "Twilight") (ascii "Hello there")
      (by decide) (by decide) (by decide) (by decide) (by decide) (by decide),
    by decide, by decide⟩

/-- C14: for every character tag `h` beginning with `[`, every text `t` (the
empty text included) and every non-empty text `u` beginning with neither `:`
nor `[`, `fixEpisode` on `[{h, t}, {"", u}]` returns the single line
`{trim s, trim u}` with `s = strings.Trim(h, "[]")`: the heading line emits
nothing, its text is not inspected, and the stripped heading is the speaker of
the next line. -/
theorem C14_song_heading_step (h t u : GoString) (hh : h.head? = some (byte '['))
    (hu : u ≠ []) (h1 : u.head? ≠ some (byte ':')) (h2 : u.head? ≠ some (byte '[')) :
    fixEpisode [⟨h, t⟩, ⟨ascii "", u⟩]
      = some [⟨Trim (Trim h (ascii "[]")) ws, Trim u ws⟩] := by
  have e0 : ascii "" = [] := rfl
  rw [e0, fixEpisode, fixEpisodeLoop, fixStep_heading [] ⟨h, t⟩ hh]
  simp only [List.append_nil]
  rw [fixEpisodeLoop, fixStep_untagged_plain _ ⟨[], u⟩ rfl hu h1 h2]
  simp [fixEpisodeLoop, emit]

/-- C14 at the heading "[[Chorus]]" with an empty text, followed by the lyric
"La la"; the speaker is "Chorus". -/
theorem C14_song_heading_step_witness :
    (ascii "[[Chorus]]").head? = some (byte '[') ∧ ascii "La la" ≠ [] ∧
      (ascii "La la").head? ≠ some (byte ':') ∧ (ascii "La la").head? ≠ some (byte '[') ∧
      fixEpisode [⟨ascii "[[Chorus]]", ascii ""⟩, ⟨ascii "", ascii "La la"⟩]
        = some [⟨Trim (Trim (ascii "[[Chorus]]") (ascii "[]")) ws, Trim (ascii "La la") ws⟩] ∧
      Trim (Trim (ascii "[[Chorus]]") (ascii "[]")) ws = ascii "Chorus" ∧
      Trim (ascii "La la") ws = ascii "La la" :=
  ⟨by decide, by decide, by decide, by decide,
    C14_song_heading_step (ascii "[[Chorus]]") (ascii "") (ascii "La la")
      (by decide) (by decide) (by decide) (by decide),
    by decide, by decide⟩

/-- C17: for every non-empty character tag `c` not beginning with `[`, every
`a`, every `b` without `:` and every non-empty `u` beginning with neither `:`
nor `[`, `fixEpisode` on `[{c, ":" ++ a}, {"", "[" ++ b ++ "]"}, {"", u}]` returns
three lines whose characters are `trim c`, `""`, `""`: the untagged action line
resets the carried speaker, and the line after it is attributed to the empty
speaker, not to `c`. -/
theorem C17_untagged_action_clears_speaker (c a b u : GoString) (hc : c ≠ [])
    (hcb : c.head? ≠ some (byte '[')) (hb : byte ':' ∉ b) (hu : u ≠ [])
    (h1 : u.head? ≠ some (byte ':')) (h2 : u.head? ≠ some (byte '[')) :
    fixEpisode [⟨c, ascii ":" ++ a⟩, ⟨ascii "", ascii "[" ++ b ++ ascii "]"⟩, ⟨ascii "", u⟩]
      = some [⟨Trim c ws, Trim a ws⟩, ⟨ascii "", Trim b ws⟩, ⟨ascii "", Trim u ws⟩] := by
  have e : ascii "[" ++ b ++ ascii "]" = byte '[' :: (b ++ [byte ']']) := by
    simp [ascii]
  have e0 : ascii "" = [] := rfl
  have e1 : ascii ":" ++ a = byte ':' :: a := rfl
  have et : Trim [] ws = [] := by decide
  rw [e, e0, e1, fixEpisode, fixEpisodeLoop, fixStep_dialogue [] c a hcb]
  simp only [hc, if_false]
  rw [fixEpisodeLoop, fixStep_untagged_action, resolveAction_plain [] b hb]
  simp only []
  rw [fixEpisodeLoop, fixStep_untagged_plain _ ⟨[], u⟩ rfl hu h1 h2]
  simp [fixEpisodeLoop, emit, et]

/-- C17 at `{"Twilight", ":Hello"}`, `{"", "[The door opens]"}`, `{"", "Later"}`. -/
theorem C17_untagged_action_clears_speaker_witness :
    ascii "Twilight" ≠ [] ∧ (ascii "Twilight").head? ≠ some (byte '[') ∧
      byte ':' ∉ ascii "The door opens" ∧ ascii "Later" ≠ [] ∧
      (ascii "Later").head? ≠ some (byte ':') ∧ (ascii "Later").head? ≠ some (byte '[') ∧
      fixEpisode [⟨ascii "Twilight", ascii ":" ++ ascii "Hello"⟩,
          ⟨ascii "", ascii "[" ++ ascii "The door opens" ++ ascii "]"⟩, ⟨ascii "", ascii "Later"⟩]
        = some [⟨Trim (ascii "Twilight") ws, Trim (ascii "Hello") ws⟩,
          ⟨ascii "", Trim (ascii "The door opens") ws⟩, ⟨ascii "", Trim (ascii "Later") ws⟩] ∧
      Trim (ascii "Twilight") ws = ascii "Twilight" :=
  ⟨by decide, by decide, by decide, by decide, by decide, by decide,
    C17_untagged_action_clears_speaker (ascii "Twilight") (ascii "Hello")
      (ascii "The door opens") (ascii "Later")
      (by decide) (by decide) (by decide) (by decide) (by decide) (by decide),
    by decide⟩

/-- C18: for every `rest`, `fixEpisode` on the single line
`{"", "[music:" ++ rest ++ "]"}` returns the single line
`{"", trim ("music:" ++ rest)}`: when the text before the first colon of the
bracket-stripped action text is exactly "music", nothing is moved into the
speaker and the prefix and the colon stay in the text. -/
theorem C18_music_exception (rest : GoString) :
    fixEpisode [⟨ascii "", ascii "[music:" ++ rest ++ ascii "]"⟩]
      = some [⟨ascii "", Trim (ascii "music:" ++ rest) ws⟩] := by
  have e : ascii "[music:" ++ rest ++ ascii "]"
      = byte '[' :: ((ascii "music" ++ byte ':' :: rest) ++ [byte ']']) := by
    simp [ascii]
  have e0 : ascii "" = [] := rfl
  have e1 : ascii "music:" ++ rest = ascii "music" ++ byte ':' :: rest := by
    simp [ascii]
  have et : Trim [] ws = [] := by decide
  rw [e, e0, e1, fixEpisode, fixEpisodeLoop, fixStep_untagged_action, resolveAction_music]
  simp [fixEpisodeLoop, emit, et]

/-- C19: for every non-empty `t1` and all `t2`, `t3`, `processLine` on the token
stream `[Text t1, Start b, Text t2, End b, Text t3, End dd]` returns
`lines ++ [{"", t1 ++ t2 ++ t3}]` and has read the whole stream: a bold start
met after text has accumulated sets no character tag, and the text tokens of
the line are concatenated in order. -/
theorem C19_inline_bold_is_formatting (lines : List Line) (t1 t2 t3 : GoString)
    (h1 : t1 ≠ []) :
    processLine lines [Token.Text t1, Token.StartTag (ascii "b"), Token.Text t2,
        Token.EndTag (ascii "b"), Token.Text t3, Token.EndTag (ascii "dd")]
      = (lines ++ [⟨ascii "", t1 ++ t2 ++ t3⟩], []) := by
  have hb : ascii "b" ≠ ascii "dd" := by decide
  have e0 : ascii "" = [] := rfl
  rw [processLine, loop_text, loop_start_pass _ _ _ _ _ _ hb (fun _ hl => absurd hl (by simpa using h1)),
    loop_text, loop_end_pass _ _ _ _ _ _ hb, loop_text, loop_end_dd_return _ _ _ _ _ (le_refl _)]
  simp [flush, e0, h1]

/-- C19 at the texts ":I ", "really", " mean it" after one earlier line. -/
theorem C19_inline_bold_is_formatting_witness :
    ascii ":I " ≠ [] ∧
      processLine [⟨ascii "Spike", ascii ":Yes"⟩]
          [Token.Text (ascii ":I "), Token.StartTag (ascii "b"), Token.Text (ascii "really"),
            Token.EndTag (ascii "b"), Token.Text (ascii " mean it"), Token.EndTag (ascii "dd")]
        = ([⟨ascii "Spike", ascii ":Yes"⟩]
            ++ [⟨ascii "", ascii ":I " ++ ascii "really" ++ ascii " mean it"⟩], []) ∧
      ascii ":I " ++ ascii "really" ++ ascii " mean it" = ascii ":I really mean it" :=
  ⟨by decide,
    C19_inline_bold_is_formatting _ (ascii ":I ") (ascii "really") (ascii " mean it")
      (by decide),
    by decide⟩

/-! ## The command line -/

/-- C13 (failing input): with the positional arguments `1 3` the code takes
`min` from the second argument and `max` from the first, so `min = 3`,
`max = 1` and the season loop runs for no season; with first as minimum and
second as maximum the seasons would be 1, 2, 3. -/
theorem C13_range_arguments_swapped :
    seasonRange [1, 3] = (3, 1) ∧
      seasonsProcessed (seasonRange [1, 3]).1 (seasonRange [1, 3]).2 = [] ∧
      seasonsProcessed 1 3 = [1, 2, 3] := by
  decide

/-! ## The extractor appends non-empty lines only -/

theorem flush_appends (ls : List Line) (c l : GoString) :
    ∃ new, flush ls c l = ls ++ new ∧ ∀ x ∈ new, x.Text ≠ [] := by
  by_cases h : 0 < l.length
  · refine ⟨[⟨c, l⟩], by simp [flush, h], ?_⟩
    intro x hx
    simp only [List.mem_singleton] at hx
    subst hx
    exact List.length_pos.mp h
  · exact ⟨[], by simp [flush, h], by simp⟩

theorem processLineLoop_appends (n : Nat) :
    ∀ (z : List Token), z.length ≤ n → ∀ (d : Int) (l c : GoString) (ls : List Line),
      ∃ new, (processLineLoop d l c ls z).1 = ls ++ new ∧ ∀ x ∈ new, x.Text ≠ [] := by
  induction n with
  | zero =>
    intro z hz d l c ls
    have hnil : z = [] := List.length_eq_zero.mp (Nat.le_zero.mp hz)
    subst hnil
    exact ⟨[], by simp [processLineLoop], by simp⟩
  | succ n ih =>
    intro z hz d l c ls
    cases z with
    | nil => exact ⟨[], by simp [processLineLoop], by simp⟩
    | cons t z =>
      have hzn : z.length ≤ n := by simpa using hz
      cases t with
      | StartTag x =>
        by_cases hx : x = ascii "dd"
        · subst hx
          rw [loop_start_dd]
          obtain ⟨n1, e1, h1⟩ := flush_appends ls c l
          obtain ⟨n2, e2, h2⟩ := ih z hzn (d + 1) [] [] (flush ls c l)
          refine ⟨n1 ++ n2, by rw [e2, e1, List.append_assoc], ?_⟩
          intro y hy
          rcases List.mem_append.mp hy with hy | hy
          · exact h1 y hy
          · exact h2 y hy
        · by_cases hbold : ∃ c1 z1, x = ascii "b" ∧ l = [] ∧ z = Token.Text c1 :: z1
          · obtain ⟨c1, z1, hxb, hl, hz1⟩ := hbold
            subst hxb hl hz1
            rw [loop_bold_name]
            have h1 : z1.length ≤ n := by simp at hzn; omega
            exact ih z1 h1 d [] c1 ls
          · rw [loop_start_pass _ _ _ _ _ _ hx
              (fun hxb hl c1 z1 hz1 => hbold ⟨c1, z1, hxb, hl, hz1⟩)]
            exact ih z hzn _ _ _ _
      | EndTag x =>
        by_cases hx : x = ascii "dd"
        · subst hx
          by_cases hd : d ≤ 1
          · rw [loop_end_dd_return _ _ _ _ _ hd]
            exact flush_appends ls c l
          · rw [loop_end_dd_continue _ _ _ _ _ (by omega)]
            exact ih z hzn _ _ _ _
        · rw [loop_end_pass _ _ _ _ _ _ hx]
          exact ih z hzn _ _ _ _
      | Text x =>
        rw [loop_text]
        exact ih z hzn _ _ _ _
      | Other =>
        rw [loop_other]
        exact ih z hzn _ _ _ _

/-- C20: for every initial line list `lines` and every finite token stream `ts`
(closed, unclosed or empty), `processLine` returns (it is a total function),
its result is `lines` followed by the lines it appended, every appended line
has a non-empty text, and so the first byte `v.Text[0]` that `fixEpisode` reads
exists for each of them. -/
theorem C20_appends_nonempty_lines (lines : List Line) (ts : List Token) :
    ∃ new, (processLine lines ts).1 = lines ++ new ∧
      (∀ x ∈ new, x.Text ≠ []) ∧ (∀ x ∈ new, ∃ c0, x.Text.head? = some c0) := by
  obtain ⟨new, e, h⟩ := processLineLoop_appends ts.length ts (Nat.le_refl _) 1 [] [] lines
  refine ⟨new, e, h, ?_⟩
  intro x hx
  cases ht : x.Text with
  | nil => exact absurd ht (h x hx)
  | cons c0 t => exact ⟨c0, rfl⟩

/-! ## Every line that is not a heading is emitted -/

theorem resolveAction_shape (prev text : GoString) (p1 : GoString) (em : List Line)
    (h : resolveAction prev text = some (p1, em)) : ∃ t, em = emit p1 t := by
  unfold resolveAction at h
  simp only [] at h
  split at h
  · cases h1 : slice text 0 (IndexRune text (byte ':')) with
    | none => simp [h1] at h
    | some pre =>
      simp only [h1, Option.some_bind] at h
      split at h
      · simp only [Option.some.injEq, Prod.mk.injEq] at h
        exact ⟨_, by rw [← h.1, ← h.2]⟩
      · cases h2 : slice text (IndexRune text (byte ':') + 1) text.length with
        | none => simp [h2] at h
        | some post =>
          simp only [h2, Option.some_bind, Option.some.injEq, Prod.mk.injEq] at h
          exact ⟨_, by rw [← h.1, ← h.2]⟩
  · simp only [Option.some.injEq, Prod.mk.injEq] at h
    exact ⟨_, by rw [← h.1, ← h.2]⟩

theorem fixStep_shape (prev : GoString) (v : Line) (p1 : GoString) (em : List Line)
    (hv : v.Character.head? ≠ some (byte '[')) (h : fixStep prev v = some (p1, em)) :
    ∃ t, em = emit p1 t := by
  unfold fixStep at h
  simp only [] at h
  split at h
  · rename_i hh
    exact absurd hh.2 hv
  · split at h
    · simp at h
    · split at h
      · cases h1 : slice v.Text 1 v.Text.length with
        | none => simp [h1] at h
        | some t =>
          simp only [h1, Option.some_bind, Option.some.injEq, Prod.mk.injEq] at h
          exact ⟨_, by rw [← h.1, ← h.2]⟩
      · split at h
        · split at h
          · cases h1 : slice (Trim v.Text ws) 1 (((Trim v.Text ws).length : Int) - 1) with
            | none => simp [h1] at h
            | some t =>
              simp only [h1, Option.some_bind] at h
              exact resolveAction_shape _ _ _ _ h
          · exact resolveAction_shape _ _ _ _ h
        · split at h
          · split at h
            · cases h1 : slice v.Text 0 (IndexRune v.Text (byte ':')) with
              | none => simp [h1] at h
              | some pre =>
                cases h2 : slice v.Text (IndexRune v.Text (byte ':') + 1) v.Text.length with
                | none => simp [h1, h2] at h
                | some post =>
                  simp only [h1, h2, Option.some_bind, Option.some.injEq, Prod.mk.injEq] at h
                  exact ⟨_, by rw [← h.1, ← h.2]⟩
            · simp only [Option.some.injEq, Prod.mk.injEq] at h
              exact ⟨_, by rw [← h.1, ← h.2]⟩
          · simp only [Option.some.injEq, Prod.mk.injEq] at h
            exact ⟨_, by rw [← h.1, ← h.2]⟩

theorem fixStep_length (prev : GoString) (v : Line) (p1 : GoString) (em : List Line)
    (h : fixStep prev v = some (p1, em)) :
    em.length = if v.Character = [] ∨ v.Character.head? ≠ some (byte '[') then 1 else 0 := by
  by_cases hv : v.Character.head? = some (byte '[')
  · have hne : v.Character ≠ [] := by
      intro h0
      rw [h0] at hv
      simp at hv
    rw [fixStep_heading prev v hv] at h
    simp only [Option.some.injEq, Prod.mk.injEq] at h
    simp [← h.2, hv, hne]
  · obtain ⟨t, ht⟩ := fixStep_shape prev v p1 em hv h
    simp [ht, emit, hv]

theorem fixEpisodeLoop_prefix (L : List Line) :
    ∀ (p : GoString) (out O : List Line), fixEpisodeLoop p out L = some O → out <+: O := by
  induction L with
  | nil =>
    intro p out O h
    simp only [fixEpisodeLoop, Option.some.injEq] at h
    subst h
    exact List.prefix_refl _
  | cons v L ih =>
    intro p out O h
    rw [fixEpisodeLoop] at h
    cases hs : fixStep p v with
    | none => simp [hs] at h
    | some r =>
      obtain ⟨p1, em⟩ := r
      simp only [hs] at h
      exact (List.prefix_append out em).trans (ih p1 (out ++ em) O h)

theorem fixEpisodeLoop_length (L : List Line) :
    ∀ (p : GoString) (out O : List Line), fixEpisodeLoop p out L = some O →
      O.length = out.length
        + L.countP (fun l => l.Character = [] ∨ l.Character.head? ≠ some (byte '[')) := by
  induction L with
  | nil =>
    intro p out O h
    simp only [fixEpisodeLoop, Option.some.injEq] at h
    subst h
    simp
  | cons v L ih =>
    intro p out O h
    rw [fixEpisodeLoop] at h
    cases hs : fixStep p v with
    | none => simp [hs] at h
    | some r =>
      obtain ⟨p1, em⟩ := r
      simp only [hs] at h
      have h1 := ih p1 (out ++ em) O h
      have h2 := fixStep_length p v p1 em hs
      rw [h1, List.length_append, h2, List.countP_cons]
      by_cases hv : v.Character = [] ∨ v.Character.head? ≠ some (byte '[')
      · simp [hv]; omega
      · simp [hv]

theorem fixEpisodeLoop_split (A B : List Line) :
    ∀ (p : GoString) (out O : List Line), fixEpisodeLoop p out (A ++ B) = some O →
      ∃ OA, fixEpisodeLoop p out A = some OA ∧ OA <+: O := by
  induction A with
  | nil =>
    intro p out O h
    exact ⟨out, by simp [fixEpisodeLoop], fixEpisodeLoop_prefix B p out O h⟩
  | cons v A ih =>
    intro p out O h
    rw [List.cons_append, fixEpisodeLoop] at h
    rw [fixEpisodeLoop]
    cases hs : fixStep p v with
    | none => simp [hs] at h
    | some r =>
      obtain ⟨p1, em⟩ := r
      simp only [hs] at h ⊢
      exact ih p1 (out ++ em) O h

/-- C15: for every raw line sequence `L` on which `fixEpisode` returns `O`, the
length of `O` is the number of lines of `L` whose character tag is empty or
does not begin with `[`, and for every split `L = A ++ B`, `fixEpisode A`
returns a prefix of `O`: only song headings are dropped and the order of the
lines is kept. -/
theorem C15_non_heading_lines_emitted_in_order (L O : List Line)
    (h : fixEpisode L = some O) :
    O.length = L.countP (fun l => l.Character = [] ∨ l.Character.head? ≠ some (byte '[')) ∧
      ∀ A B, L = A ++ B → ∃ OA, fixEpisode A = some OA ∧ OA <+: O := by
  refine ⟨?_, ?_⟩
  · have := fixEpisodeLoop_length L [] [] O h
    simpa using this
  · intro A B hab
    subst hab
    exact fixEpisodeLoop_split A B [] [] O h

/-- C15 at a dialogue line, a song heading and a lyric line. -/
theorem C15_non_heading_lines_emitted_in_order_witness :
    fixEpisode [⟨ascii "Spike", ascii ":Yes"⟩, ⟨ascii "[Chorus]", ascii "x"⟩,
        ⟨ascii "", ascii "La la"⟩]
      = some [⟨ascii "Spike", ascii "Yes"⟩, ⟨ascii "Chorus", ascii "La la"⟩] ∧
    ([(⟨ascii "Spike", ascii "Yes"⟩ : Line), ⟨ascii "Chorus", ascii "La la"⟩].length
        = [(⟨ascii "Spike", ascii ":Yes"⟩ : Line), ⟨ascii "[Chorus]", ascii "x"⟩,
            ⟨ascii "", ascii "La la"⟩].countP
          (fun l => l.Character = [] ∨ l.Character.head? ≠ some (byte '[')) ∧
      ∀ A B, [(⟨ascii "Spike", ascii ":Yes"⟩ : Line), ⟨ascii "[Chorus]", ascii "x"⟩,
            ⟨ascii "", ascii "La la"⟩] = A ++ B →
        ∃ OA, fixEpisode A = some OA ∧
          OA <+: [(⟨ascii "Spike", ascii "Yes"⟩ : Line), ⟨ascii "Chorus", ascii "La la"⟩]) :=
  ⟨by decide, C15_non_heading_lines_emitted_in_order _ _ (by decide)⟩

/-! ## Speaker inheritance -/

theorem fixStep_untagged_inherits (p : GoString) (v : Line) (hc : v.Character = [])
    (hne : v.Text ≠ []) (h2 : v.Text.head? ≠ some (byte '[')) :
    ∃ t, fixStep p v = some (p, emit p t) := by
  by_cases h1 : v.Text.head? = some (byte ':')
  · obtain ⟨c, t⟩ := v
    simp only at hc hne h1 h2
    subst hc
    cases t with
    | nil => exact absurd rfl hne
    | cons x t =>
      simp only [List.head?_cons, Option.some.injEq] at h1
      subst h1
      have := fixStep_dialogue p [] t (by simp)
      simp only [if_true] at this
      exact ⟨t, this⟩
  · exact ⟨v.Text, fixStep_untagged_plain p v hc hne h1 h2⟩

theorem fixEpisodeLoop_last_two (a b : Line) (O : List Line)
    (ha : a.Character = [] ∨ a.Character.head? ≠ some (byte '['))
    (hb : b.Character = []) (hbt : b.Text ≠ []) (hb2 : b.Text.head? ≠ some (byte '['))
    (P : List Line) :
    ∀ (p : GoString) (out : List Line), fixEpisodeLoop p out (P ++ [a, b]) = some O →
      ∃ O1 la lb, O = O1 ++ [la, lb] ∧ la.Character = lb.Character := by
  have hv : a.Character.head? ≠ some (byte '[') := by
    rcases ha with ha | ha
    · rw [ha]; simp
    · exact ha
  induction P with
  | nil =>
    intro p out h
    rw [List.nil_append, fixEpisodeLoop] at h
    cases hs : fixStep p a with
    | none => simp [hs] at h
    | some r =>
      obtain ⟨p1, em⟩ := r
      simp only [hs] at h
      obtain ⟨t1, e1⟩ := fixStep_shape p a p1 em hv hs
      obtain ⟨t2, e2⟩ := fixStep_untagged_inherits p1 b hb hbt hb2
      rw [fixEpisodeLoop, e2] at h
      simp only [fixEpisodeLoop, Option.some.injEq] at h
      refine ⟨out, ⟨Trim p1 ws, Trim t1 ws⟩, ⟨Trim p1 ws, Trim t2 ws⟩, ?_, rfl⟩
      rw [← h, e1]
      simp [emit]
  | cons v P ih =>
    intro p out h
    rw [List.cons_append, fixEpisodeLoop] at h
    cases hs : fixStep p v with
    | none => simp [hs] at h
    | some r =>
      obtain ⟨p1, em⟩ := r
      simp only [hs] at h
      exact ih p1 (out ++ em) h

/-- C16: for every raw line sequence `P`, every line `a` whose character tag is
empty or does not begin with `[`, and every line `b` with an empty character
and a non-empty text that does not begin with `[`, if `fixEpisode` returns `O`
on `P ++ [a, b]` then `O` ends with two lines that have the same character: a
dialogue or continuation line without its own tag gets the speaker resolved for
the line before it. -/
theorem C16_speaker_inheritance (P : List Line) (a b : Line) (O : List Line)
    (ha : a.Character = [] ∨ a.Character.head? ≠ some (byte '['))
    (hb : b.Character = []) (hbt : b.Text ≠ []) (hb2 : b.Text.head? ≠ some (byte '['))
    (h : fixEpisode (P ++ [a, b]) = some O) :
    ∃ O1 la lb, O = O1 ++ [la, lb] ∧ la.Character = lb.Character :=
  fixEpisodeLoop_last_two a b O ha hb hbt hb2 P [] [] h

/-- C16 at `P = [{"Spike", ":Yes"}]`, `a = {"Twilight", ":Hello"}`,
`b = {"", "And more"}`; both last lines are attributed to "Twilight". -/
theorem C16_speaker_inheritance_witness :
    fixEpisode ([⟨ascii "Spike", ascii ":Yes"⟩]
        ++ [⟨ascii "Twilight", ascii ":Hello"⟩, ⟨ascii "", ascii "And more"⟩])
      = some [⟨ascii "Spike", ascii "Yes"⟩, ⟨ascii "Twilight", ascii "Hello"⟩,
          ⟨ascii "Twilight", ascii "And more"⟩] ∧
    ∃ O1 la lb, [(⟨ascii "Spike", ascii "Yes"⟩ : Line), ⟨ascii "Twilight", ascii "Hello"⟩,
          ⟨ascii "Twilight", ascii "And more"⟩] = O1 ++ [la, lb] ∧
        la.Character = lb.Character :=
  ⟨by decide,
    C16_speaker_inheritance [⟨ascii "Spike", ascii ":Yes"⟩]
      ⟨ascii "Twilight", ascii ":Hello"⟩ ⟨ascii "", ascii "And more"⟩ _
      (by decide) (by decide) (by decide) (by decide) (by decide)⟩

end TranscriptPacker
